import Mathlib

/-!
# Verification of the toxic-comment-classification data pipeline

Shallow embedding of the data-preparation pipeline of the repository
(`dataset.py` and the batch collator of `train.py`), together with proofs
settling the specification claims about it.

Modelling conventions:
* Python lists become `List`, Python dicts become association lists in
  insertion order (`pyGet` looks up with last-occurrence-wins semantics,
  matching dict-comprehension overwrite; for the dicts arising here keys are
  distinct, so this coincides with first-match lookup).
* Python exceptions (`ValueError`, `KeyError`, unpacking failures) become
  `Option`: `none` models "the call raises".
* File contents are modelled as `List Char`; Python `str.split()` /
  line iteration are modelled character by character below.
* Python `int` slicing bounds (which may be negative) are modelled by
  `pySliceTo` / `pySliceFrom` over `Int`; `int(x)` applied to a real value is
  modelled on `ℚ` by `pyInt` (truncation toward zero).
* `set(...)` iteration order is arbitrary in Python; constructions below take
  the already-deduplicated label list as a parameter and theorems quantify
  over it (with a `Nodup` hypothesis), so every possible set order is covered.
-/

namespace Toxic

/-! ## Python primitives -/

/-- Python `int(q)` on a rational value: truncation toward zero. -/
def pyInt (q : ℚ) : Int := if 0 ≤ q then ⌊q⌋ else -⌊-q⌋

/-- Python slice `l[:k]` with an `Int` bound (negative bounds count from the end). -/
def pySliceTo (l : List α) (k : Int) : List α :=
  if 0 ≤ k then l.take k.toNat else l.take (l.length - (-k).toNat)

/-- Python slice `l[k:]` with an `Int` bound (negative bounds count from the end). -/
def pySliceFrom (l : List α) (k : Int) : List α :=
  if 0 ≤ k then l.drop k.toNat else l.drop (l.length - (-k).toNat)

/-- Python `d.get(k)` on a dict represented as an association list in insertion
order, where a key inserted twice keeps its last value: lookup returns the
last binding of `k`. -/
def pyGet [BEq κ] (d : List (κ × ν)) (k : κ) : Option ν :=
  (d.reverse.find? (fun p => p.1 == k)).map Prod.snd

/-- Python `d[k] = v` on a dict represented as an association list: overwrite
in place if the key is present (keeping its position), else append. -/
def pyDictInsert [BEq κ] (d : List (κ × ν)) (k : κ) (v : ν) : List (κ × ν) :=
  if d.any (fun p => p.1 == k) then
    d.map (fun p => if p.1 == k then (p.1, v) else p)
  else d ++ [(k, v)]

/-- Python `str.lower()`, modelled character-wise (ASCII case folding). -/
def pyToLower (s : String) : String := String.mk (s.toList.map Char.toLower)

/-- Whitespace in the sense of Python `str.split()` (ASCII subset). -/
def isWsChar (c : Char) : Bool := c.isWhitespace

/-- Helper for `splitWs`: accumulate the current word (reversed) and split at
whitespace, discarding empty fragments. -/
def splitWsAux : List Char → List Char → List (List Char)
  | [], acc => if acc.isEmpty then [] else [acc.reverse]
  | c :: rest, acc =>
    if isWsChar c then
      if acc.isEmpty then splitWsAux rest []
      else acc.reverse :: splitWsAux rest []
    else splitWsAux rest (c :: acc)

/-- Python `str.split()` with no argument: split on runs of whitespace,
no empty fragments. -/
def splitWs (cs : List Char) : List (List Char) := splitWsAux cs []

/-- Helper for `pyLines`: accumulate the current line (reversed); a line keeps
its trailing newline, and a final fragment without a newline is still a line. -/
def pyLinesAux : List Char → List Char → List (List Char)
  | [], acc => if acc.isEmpty then [] else [acc.reverse]
  | c :: rest, acc =>
    if c = '\n' then (acc.reverse ++ ['\n']) :: pyLinesAux rest []
    else pyLinesAux rest (c :: acc)

/-- Iterating over a Python text file yields its lines, each keeping its
trailing newline. -/
def pyLines (cs : List Char) : List (List Char) := pyLinesAux cs []

/-- Decimal digit character for a value below ten. -/
def digitChar : Nat → Char
  | 0 => '0' | 1 => '1' | 2 => '2' | 3 => '3' | 4 => '4'
  | 5 => '5' | 6 => '6' | 7 => '7' | 8 => '8' | _ => '9'

/-- Decimal rendering of a natural number, as produced by Python
`"{}".format(n)` for a non-negative int. -/
def natToChars (n : Nat) : List Char :=
  if _h : n < 10 then [digitChar n]
  else natToChars (n / 10) ++ [digitChar (n % 10)]
decreasing_by exact Nat.div_lt_self (by omega) (by omega)

/-- Numeric value of a digit character. -/
def digitVal (c : Char) : Nat := c.toNat - 48

/-- Test for a decimal digit character. -/
def isDigitChar (c : Char) : Bool := 48 ≤ c.toNat && c.toNat ≤ 57

/-- Python `int(s)` restricted to unsigned decimal strings (the only form the
pipeline ever writes); anything else is treated as a parse failure. -/
def parseNatChars (cs : List Char) : Option Nat :=
  if cs.isEmpty then none
  else if cs.all isDigitChar then
    some (cs.foldl (fun a c => a * 10 + digitVal c) 0)
  else none

/-! ## LabelIndexMap (`dataset.py`, lines 33-81) -/

/-- `LabelIndexMap`: the state after `__init__` is fully determined by the
final `individual_labels` list; `label_to_index` / `index_to_label` are the
two dicts built from it by enumeration. -/
structure LabelIndexMap where
  individual_labels : List String
deriving DecidableEq

/-- The dict `{label: i for i, label in enumerate(individual_labels)}`. -/
def LabelIndexMap.label_to_index (m : LabelIndexMap) : List (String × Nat) :=
  m.individual_labels.enum.map (fun p => (p.2, p.1))

/-- The dict `{i: label for i, label in enumerate(individual_labels)}`. -/
def LabelIndexMap.index_to_label (m : LabelIndexMap) : List (Nat × String) :=
  m.individual_labels.enum

/-- `m[label]` (`__getitem__`), i.e. `label_to_index[label]`; `none` models
`KeyError`. -/
def LabelIndexMap.index_of (m : LabelIndexMap) (l : String) : Option Nat :=
  pyGet m.label_to_index l

/-- `index_to_label[i]`; `none` models `KeyError`. -/
def LabelIndexMap.label_of (m : LabelIndexMap) (i : Nat) : Option String :=
  pyGet m.index_to_label i

/-- `len(m)`. -/
def LabelIndexMap.size (m : LabelIndexMap) : Nat := m.label_to_index.length

/-- The `required_mappings` loop of `LabelIndexMap.__init__`
(`dataset.py` lines 43-58).  `allReqs` is the full dict
`required_mappings` (used for the compatibility check via `.get`), `rest` the
items still to process in insertion order.  For each `(element, position)`
item it checks the position is in range, checks the label currently occupying
the position is not itself required there (unless it is `element`), finds
`element`'s current position with `list.index`, and swaps.  `none` models a
raised `ValueError`. -/
def applyReqs (allReqs : List (String × Nat)) :
    List (String × Nat) → List String → Option (List String)
  | [], labels => some labels
  | (e, p) :: rest, labels =>
    if hp : p < labels.length then
      let occ := labels.get ⟨p, hp⟩
      if pyGet allReqs occ == some p && e != occ then none
      else
        match labels.findIdx? (fun x => x == e) with
        | none => none
        | some cur => applyReqs allReqs rest ((labels.set cur occ).set p e)
    else none

/-- `LabelIndexMap(all_labels, required_mappings=reqs)`.  The first argument
is `list(set(all_labels))`: the deduplicated label list, in the (arbitrary)
order Python's set iteration produces; theorems quantify over this order.
The construction with `sort_key` (or with neither option) is the special case
`reqs = []` applied to the suitably ordered list. -/
def mkWithReqs (labels : List String) (reqs : List (String × Nat)) :
    Option LabelIndexMap :=
  (applyReqs reqs reqs labels).map LabelIndexMap.mk

/-- `m.save(filename)`: the file contents written by `save`, one
`label<TAB>index` line per `label_to_index` item, in index order
(`dataset.py` lines 69-72). -/
def LabelIndexMap.save (m : LabelIndexMap) : List Char :=
  (m.label_to_index.map
    (fun p => p.1.toList ++ '\t' :: natToChars p.2 ++ ['\n'])).flatten

/-- One step of the `load` loop: split the line on whitespace, require exactly
two fields, parse the index, store into the dict `v`. -/
def loadLine (acc : Option (List (String × Nat))) (line : List Char) :
    Option (List (String × Nat)) :=
  match acc with
  | none => none
  | some d =>
    match splitWs line with
    | [a, b] =>
      match parseNatChars b with
      | some i => some (pyDictInsert d (String.mk a) i)
      | none => none
    | _ => none

/-- `LabelIndexMap.load(filename)` (`dataset.py` lines 74-81): parse every
line into the dict `v`, then rebuild through the `required_mappings`
constructor path.  `none` models any raised exception. -/
def LabelIndexMap.load (file : List Char) : Option LabelIndexMap :=
  match (pyLines file).foldl loadLine (some []) with
  | none => none
  | some v => mkWithReqs (v.map Prod.fst) v

/-! ## Vocabulary builder (`compute_vocab`, `dataset.py` lines 7-30) -/

/-- A CSV row as produced by `csv.reader`: a list of fields. -/
abbrev Row := List String

/-- `row[1]`, the text field of a row. -/
def textOf (r : Row) : String := r.getD 1 ""

/-- Python `str.split` as a `String`-level tokenizer (the default `tokenizer`
argument of `compute_vocab`). -/
def pySplitStr (s : String) : List String :=
  (splitWs s.toList).map (fun cs => String.mk cs)

/-- The token stream of `compute_vocab`:
`[token for row in rows for token in map(lambda x: x.lower(), tokenizer(row[1]))]`.
Every row is included — the header row is not skipped here. -/
def allTokens (tok : String → List String) (rows : List Row) : List String :=
  (rows.map (fun r => (tok (textOf r)).map pyToLower)).flatten

/-- One step of the occurrence count:
`occurrences[word] = occurrences.get(word, 0) + 1` on a dict kept as an
association list in first-insertion order. -/
def occInsert (acc : List (String × Nat)) (w : String) : List (String × Nat) :=
  if acc.any (fun p => p.1 == w) then
    acc.map (fun p => if p.1 == w then (p.1, p.2 + 1) else p)
  else acc ++ [(w, 1)]

/-- The `occurrences` dict of `compute_vocab`: token ↦ count, keys in
first-occurrence order. -/
def occList (ws : List String) : List (String × Nat) := ws.foldl occInsert []

/-- `sorted(occurrences.items(), key=lambda x: x[1], reverse=True)`:
a stable sort by descending count (Python's `sorted` is stable also with
`reverse=True`). -/
def occSorted (ws : List String) : List (String × Nat) :=
  (occList ws).mergeSort (fun p q => decide (q.2 ≤ p.2))

/-- The slice bound `max_size - 1` of `compute_vocab`; when `max_size` is
`None` it is first defaulted to `len(occurrences)`. -/
def selectedBound (ws : List String) : Option Int → Int
  | none => ((occList ws).length : Int) - 1
  | some m => m - 1

/-- The token names selected by `compute_vocab`:
`sorted(...)[:max_size - 1]` — note the bound is `max_size - 1`, not
`max_size - 2`. -/
def selectedNames (tok : String → List String) (rows : List Row)
    (maxSize : Option Int) : List String :=
  (pySliceTo (occSorted (allTokens tok rows))
    (selectedBound (allTokens tok rows) maxSize)).map Prod.fst

/-- Python `set.add`: membership-checked append (the resulting iteration
order of the set is arbitrary in Python; the claims proved below only use
membership and size, which do not depend on it). -/
def addIfAbsent (l : List String) (x : String) : List String :=
  if x ∈ l then l else l ++ [x]

/-- The label set handed by `compute_vocab` to `LabelIndexMap`:
the selected tokens plus `<PAD>` and `<UNK>`. -/
def vocabLabels (tok : String → List String) (rows : List Row)
    (maxSize : Option Int) : List String :=
  addIfAbsent (addIfAbsent (selectedNames tok rows maxSize) "<PAD>") "<UNK>"

/-- `compute_vocab(csv_rows, tokenizer, max_size)` up to the constructed
`LabelIndexMap` (the subsequent file write is the `save` format with a single
space, not exercised by the claims).  `none` models a raised exception. -/
def computeVocab (tok : String → List String) (rows : List Row)
    (maxSize : Option Int) : Option LabelIndexMap :=
  mkWithReqs (vocabLabels tok rows maxSize) [("<PAD>", 0), ("<UNK>", 1)]

/-! ## Dataset and split (`dataset.py` lines 84-120) -/

/-- Token encoding inside `ToxicCommentDataset.__getitem__`:
`label_to_index.get(token.lower(), label_to_index['<UNK>'])`.
Python evaluates the default argument first, so a missing `'<UNK>'` key
raises (`none`) even when the token itself is present. -/
def encodeToken (m : LabelIndexMap) (t : String) : Option Nat :=
  match m.index_of "<UNK>" with
  | none => none
  | some u => some ((m.index_of (pyToLower t)).getD u)

/-- The token-id sequence produced by `__getitem__` for one row, with the
word tokenizer (`nltk.word_tokenize`, an external collaborator) passed as a
parameter. -/
def getItemTokens (tokenize : String → List String) (m : LabelIndexMap)
    (r : Row) : Option (List Nat) :=
  (tokenize (textOf r)).mapM (encodeToken m)

/-- The train/validation split of `produce_datasets` (`dataset.py`
lines 118-119) applied to an already-loaded row list:
`train_size = int((1 - val_ratio) * len(rows))`, then
`rows[:train_size]` and `rows[train_size:]`. -/
def splitRows (rows : List Row) (r : ℚ) : List Row × List Row :=
  let t := pyInt ((1 - r) * (rows.length : ℚ))
  (pySliceTo rows t, pySliceFrom rows t)

/-- `produce_datasets` (`dataset.py` lines 103-120), reduced to its
row-handling: the CSV rows minus the first (header) row are split by
`val_ratio`.  There is no validation of `val_ratio` in the source. -/
def produceDatasets (rows : List Row) (r : ℚ) : List Row × List Row :=
  splitRows (rows.drop 1) r

/-! ## Batch collator (`CollatePad.__call__`, `train.py` lines 22-59) -/

/-- One example of a batch: a tuple of tensor groups; each group's tensor is
modelled along its variable first dimension (the trailing dimensions are
fixed and carried by the element type, here collapsed to `Int`). -/
abbrev Example := List (List Int)

/-- `len(elem[0])`: the length of an example's group-0 sequence. -/
def len0 (ex : Example) : Nat := (ex.headD []).length

/-- The comparison underlying
`sorted(batch, reverse=True, key=lambda elem: len(elem[0]))`:
descending group-0 length; a stable sort with this relation is exactly
Python's stable reverse sort. -/
def collateLE (a b : Example) : Bool := decide (len0 b ≤ len0 a)

/-- The sorted batch of `CollatePad.__call__` (line 44). -/
def sortBatch (batch : List Example) : List Example :=
  batch.mergeSort collateLE

/-- Column `g` of the sorted batch: `[tensors[group_index] for tensors in batch]`. -/
def groupCol (g : Nat) (sorted : List Example) : List (List Int) :=
  sorted.map (fun ex => ex.getD g [])

/-- `np.max(variable_lengths, axis=0)` for one group: the maximum sequence
length of the group across the batch. -/
def maxLenG (col : List (List Int)) : Nat := (col.map List.length).foldr max 0

/-- One padded row: the sequence copied into the prefix, `pad_value`
everywhere at or beyond its length (`padded_tensor[batch_index, :length] = ...`
over a tensor initialised to `pad_value * ones`). -/
def padRow (padVal : Int) (m : Nat) (xs : List Int) : List Int :=
  xs ++ List.replicate (m - xs.length) padVal

/-- `CollatePad.__call__`: returns, per tensor group, the padded batch array
and the vector of pre-padding lengths, both in descending-group-0-length
order.  The group count is read off the (rectangular) batch. -/
def collate (padVal : Int) (batch : List Example) :
    List (List (List Int)) × List (List Nat) :=
  let sorted := sortBatch batch
  let G := (batch.headD []).length
  ((List.range G).map
      (fun g => (groupCol g sorted).map
        (padRow padVal (maxLenG (groupCol g sorted)))),
   (List.range G).map (fun g => (groupCol g sorted).map List.length))

/-! ## General helper lemmas -/

theorem get_cons_set_perm (l : List α) (i : Nat) (hi : i < l.length) (a : α) :
    (l[i] :: l.set i a).Perm (a :: l) := by
  induction l generalizing i with
  | nil => simp at hi
  | cons b t ih =>
    cases i with
    | zero => simpa using List.Perm.swap a b t
    | succ k =>
      have hk : k < t.length := by simpa using hi
      simp only [List.getElem_cons_succ, List.set_cons_succ]
      have h1 : (t[k] :: b :: t.set k a).Perm (b :: t[k] :: t.set k a) :=
        List.Perm.swap _ _ _
      have h2 : (b :: t[k] :: t.set k a).Perm (b :: a :: t) :=
        List.Perm.cons b (ih k hk)
      have h3 : (b :: a :: t).Perm (a :: b :: t) := List.Perm.swap _ _ _
      exact (h1.trans h2).trans h3

theorem set_get_self (l : List α) (i : Nat) (hi : i < l.length) :
    l.set i l[i] = l := by
  apply List.ext_getElem?
  intro n
  by_cases h : n = i
  · subst h; simp [List.getElem?_set_self hi, List.getElem?_eq_getElem hi]
  · simp [List.getElem?_set_ne (by omega : i ≠ n)]

theorem set_set_swap_perm (l : List α) (i j : Nat) (hi : i < l.length)
    (hj : j < l.length) : ((l.set i l[j]).set j l[i]).Perm l := by
  by_cases hij : i = j
  · subst hij
    rw [List.set_set, set_get_self l i hi]
  · have hj2 : j < (l.set i l[j]).length := by simpa using hj
    have e1 : (l.set i l[j])[j] = l[j] := List.getElem_set_ne hij hj2
    have h1 := get_cons_set_perm (l.set i l[j]) j hj2 l[i]
    rw [e1] at h1
    have h2 := get_cons_set_perm l i hi l[j]
    exact (h1.trans h2).cons_inv

theorem pyGet_mem [BEq κ] [LawfulBEq κ] {d : List (κ × ν)} {k : κ} {v : ν}
    (h : pyGet d k = some v) : (k, v) ∈ d := by
  unfold pyGet at h
  cases hf : d.reverse.find? (fun p => p.1 == k) with
  | none => rw [hf] at h; simp at h
  | some q =>
    rw [hf] at h
    simp only [Option.map_some', Option.some.injEq] at h
    have hq := List.find?_some hf
    have hm := List.mem_of_find?_eq_some hf
    obtain ⟨q1, q2⟩ := q
    simp only [beq_iff_eq] at hq
    subst hq; subst h
    exact List.mem_reverse.mp hm

theorem pyGet_of_nodup_mem [BEq κ] [LawfulBEq κ] {d : List (κ × ν)} {k : κ}
    {v : ν} (hnd : (d.map Prod.fst).Nodup) (hm : (k, v) ∈ d) :
    pyGet d k = some v := by
  unfold pyGet
  cases hf : d.reverse.find? (fun p => p.1 == k) with
  | none =>
    rw [List.find?_eq_none] at hf
    exact absurd (by simp : ((k, v).1 == k) = true)
      (hf _ (List.mem_reverse.mpr hm))
  | some q =>
    have hq := List.find?_some hf
    have hqm := List.mem_reverse.mp (List.mem_of_find?_eq_some hf)
    simp only [beq_iff_eq] at hq
    have : q = (k, v) := by
      apply List.inj_on_of_nodup_map hnd hqm hm
      simp [hq]
    subst this
    simp

/-! ## Soundness of the required-mappings swap loop -/

theorem applyReqs_perm (allReqs : List (String × Nat)) :
    ∀ (rest : List (String × Nat)) (labels final : List String),
      applyReqs allReqs rest labels = some final → final.Perm labels := by
  intro rest
  induction rest with
  | nil =>
    intro labels final h
    simp only [applyReqs, Option.some.injEq] at h
    subst h
    exact List.Perm.refl _
  | cons ep rest ih =>
    obtain ⟨e, p⟩ := ep
    intro labels final h
    simp only [applyReqs] at h
    split at h
    case isTrue hp =>
      split at h
      case isTrue => simp at h
      case isFalse =>
        cases hf : labels.findIdx? (fun x => x == e) with
        | none => rw [hf] at h; simp at h
        | some cur =>
          rw [hf] at h
          obtain ⟨hlt, hbeq, -⟩ := List.findIdx?_eq_some_iff_getElem.mp hf
          have he : labels[cur] = e := by simpa using hbeq
          have hswap : ((labels.set cur (labels.get ⟨p, hp⟩)).set p e).Perm labels := by
            have hs := set_set_swap_perm labels cur p hlt hp
            rw [he] at hs
            simpa using hs
          exact (ih _ _ h).trans hswap
    case isFalse => simp at h

theorem pre_key_ne {allReqs pre rest : List (String × Nat)} {e : String}
    {p : Nat} (hsplit : allReqs = pre ++ (e, p) :: rest)
    (hkeys : (allReqs.map Prod.fst).Nodup)
    {f : String} {q : Nat} (hfq : (f, q) ∈ pre) : f ≠ e := by
  subst hsplit
  rw [List.map_append, List.nodup_append] at hkeys
  obtain ⟨-, -, hdisj⟩ := hkeys
  intro hfe
  subst hfe
  exact hdisj (List.mem_map_of_mem Prod.fst hfq) (by simp)

/-- Invariant of the swap loop of `LabelIndexMap.__init__`: with distinct
required labels, distinct required positions, every required label present and
every required position in range, the loop raises no error and afterwards
every required label sits at its required position.  `pre` is the
already-processed prefix of the `required_mappings` items. -/
theorem applyReqs_sound (allReqs : List (String × Nat)) :
    ∀ (rest pre : List (String × Nat)) (labels : List String),
      allReqs = pre ++ rest →
      (allReqs.map Prod.fst).Nodup →
      (allReqs.map Prod.snd).Nodup →
      (∀ ep ∈ allReqs, ep.1 ∈ labels) →
      (∀ ep ∈ allReqs, ep.2 < labels.length) →
      (∀ ep ∈ pre, labels[ep.2]? = some ep.1) →
      ∃ final, applyReqs allReqs rest labels = some final ∧
        final.Perm labels ∧ ∀ ep ∈ allReqs, final[ep.2]? = some ep.1 := by
  intro rest
  induction rest with
  | nil =>
    intro pre labels hsplit _ _ _ _ hpre
    refine ⟨labels, by simp [applyReqs], List.Perm.refl _, ?_⟩
    intro ep hep
    exact hpre ep (by simpa [hsplit] using hep)
  | cons epr rest ih =>
    obtain ⟨e, p⟩ := epr
    intro pre labels hsplit hkeys hpos hmem hlt hpre
    have hepmem : (e, p) ∈ allReqs := by
      rw [hsplit]; exact List.mem_append_right _ (List.mem_cons_self _ _)
    have hp : p < labels.length := hlt _ hepmem
    set occ := labels.get ⟨p, hp⟩ with hocc
    have hoccp : labels[p]? = some occ := by
      simp [hocc, List.getElem?_eq_getElem hp]
    have hnoconf : ¬((pyGet allReqs occ == some p && e != occ) = true) := by
      intro hc
      simp only [Bool.and_eq_true, beq_iff_eq, bne_iff_ne] at hc
      obtain ⟨hgety, hne⟩ := hc
      have hoccm : (occ, p) ∈ allReqs := pyGet_mem hgety
      have : (occ, p) = (e, p) :=
        List.inj_on_of_nodup_map hpos hoccm hepmem rfl
      exact hne (by simpa using this.symm)
    have hein : e ∈ labels := hmem _ hepmem
    have hfindsome : (labels.findIdx? (fun x => x == e)).isSome := by
      rw [List.findIdx?_isSome, List.any_eq_true]
      exact ⟨e, hein, by simp⟩
    cases hf : labels.findIdx? (fun x => x == e) with
    | none => rw [hf] at hfindsome; simp at hfindsome
    | some cur =>
      obtain ⟨hclt, hbeq, -⟩ := List.findIdx?_eq_some_iff_getElem.mp hf
      have hce : labels[cur] = e := by simpa using hbeq
      have hstep : applyReqs allReqs ((e, p) :: rest) labels =
          applyReqs allReqs rest ((labels.set cur occ).set p e) := by
        simp only [applyReqs, dif_pos hp]
        rw [if_neg hnoconf, hf]
      have hperm2 : ((labels.set cur occ).set p e).Perm labels := by
        have hs := set_set_swap_perm labels cur p hclt hp
        rw [hce] at hs
        simpa [hocc] using hs
      have hlen2 : ((labels.set cur occ).set p e).length = labels.length :=
        hperm2.length_eq
      have hplace : ∀ ep ∈ pre ++ [(e, p)],
          ((labels.set cur occ).set p e)[ep.2]? = some ep.1 := by
        intro ⟨f, q⟩ hfq
        rcases List.mem_append.mp hfq with hfq1 | hfq2
        · have hne : f ≠ e := pre_key_ne hsplit hkeys hfq1
          have hq : labels[q]? = some f := hpre _ hfq1
          have hqp : q ≠ p := by
            intro hqp
            subst hqp
            rw [hoccp] at hq
            have hfocc : occ = f := by simpa using hq
            subst hfocc
            have : (occ, q) = (e, q) :=
              List.inj_on_of_nodup_map hpos
                (by rw [hsplit]; exact List.mem_append_left _ hfq1) hepmem rfl
            exact hne (by simpa using this)
          have hqc : q ≠ cur := by
            intro hqc
            subst hqc
            rw [List.getElem?_eq_getElem hclt, hce] at hq
            have hef : e = f := by simpa using hq
            exact hne hef.symm
          rw [List.getElem?_set_ne (Ne.symm hqp),
            List.getElem?_set_ne (Ne.symm hqc)]
          exact hq
        · have : f = e ∧ q = p := by simpa using hfq2
          obtain ⟨rfl, rfl⟩ := this
          exact List.getElem?_set_self (by simpa using hp)
      obtain ⟨final, hrun, hfperm, hfplace⟩ :=
        ih (pre ++ [(e, p)]) ((labels.set cur occ).set p e)
          (by rw [hsplit]; simp)
          hkeys hpos
          (fun ep hep => hperm2.mem_iff.mpr (hmem ep hep))
          (fun ep hep => hlen2 ▸ hlt ep hep)
          hplace
      exact ⟨final, hstep ▸ hrun, hfperm.trans hperm2, hfplace⟩

/-! ## LabelIndexMap dictionary lemmas -/

theorem label_to_index_keys (m : LabelIndexMap) :
    m.label_to_index.map Prod.fst = m.individual_labels := by
  unfold LabelIndexMap.label_to_index
  rw [List.map_map]
  have h : (Prod.fst ∘ fun p : Nat × String => (p.2, p.1)) = Prod.snd := rfl
  rw [h, List.enum_map_snd]

theorem label_to_index_values (m : LabelIndexMap) :
    m.label_to_index.map Prod.snd = List.range m.individual_labels.length := by
  unfold LabelIndexMap.label_to_index
  rw [List.map_map]
  have h : (Prod.snd ∘ fun p : Nat × String => (p.2, p.1)) = Prod.fst := rfl
  rw [h, List.enum_map_fst]

theorem size_eq (m : LabelIndexMap) : m.size = m.individual_labels.length := by
  unfold LabelIndexMap.size LabelIndexMap.label_to_index
  simp

theorem mem_label_to_index {m : LabelIndexMap} {l : String} {i : Nat} :
    (l, i) ∈ m.label_to_index ↔ m.individual_labels[i]? = some l := by
  unfold LabelIndexMap.label_to_index
  constructor
  · intro h
    obtain ⟨⟨a, b⟩, hm, he⟩ := List.mem_map.mp h
    obtain ⟨rfl, rfl⟩ : b = l ∧ a = i := by
      simpa [Prod.ext_iff, and_comm] using he
    exact List.mk_mem_enum_iff_getElem?.mp hm
  · intro h
    exact List.mem_map.mpr ⟨(i, l), List.mk_mem_enum_iff_getElem?.mpr h, rfl⟩

theorem index_of_eq_some_iff {m : LabelIndexMap}
    (hnd : m.individual_labels.Nodup) {l : String} {i : Nat} :
    m.index_of l = some i ↔ m.individual_labels[i]? = some l := by
  unfold LabelIndexMap.index_of
  constructor
  · intro h
    exact mem_label_to_index.mp (pyGet_mem h)
  · intro h
    exact pyGet_of_nodup_mem (by rw [label_to_index_keys]; exact hnd)
      (mem_label_to_index.mpr h)

theorem label_of_eq_getElem? (m : LabelIndexMap) (i : Nat) :
    m.label_of i = m.individual_labels[i]? := by
  unfold LabelIndexMap.label_of LabelIndexMap.index_to_label
  cases h : m.individual_labels[i]? with
  | none =>
    have hlen : m.individual_labels.length ≤ i := by
      simpa using List.getElem?_eq_none_iff.mp h
    unfold pyGet
    rw [List.find?_eq_none.mpr]
    · rfl
    · intro x hx
      have := List.fst_lt_of_mem_enum (List.mem_reverse.mp hx)
      simp only [beq_iff_eq]
      omega
  | some l =>
    exact pyGet_of_nodup_mem
      (by rw [List.enum_map_fst]; exact List.nodup_range _)
      (List.mk_mem_enum_iff_getElem?.mpr h)

theorem mkWithReqs_perm {labels : List String} {reqs : List (String × Nat)}
    {m : LabelIndexMap} (h : mkWithReqs labels reqs = some m) :
    m.individual_labels.Perm labels := by
  unfold mkWithReqs at h
  cases hr : applyReqs reqs reqs labels with
  | none => rw [hr] at h; simp at h
  | some final =>
    rw [hr] at h
    simp only [Option.map_some', Option.some.injEq] at h
    subst h
    exact applyReqs_perm reqs reqs labels final hr

/-! ## Claim C1 -/

/-- C1: for every deduplicated label list `L` (any set-iteration order) and
every `required_mappings` `R` whose keys are distinct labels of `L` and whose
positions are distinct and in range, `LabelIndexMap(L, required_mappings=R)`
raises no error and `index_of(label) = R[label]` for every label of `R`. -/
theorem c1_required_mappings_placed
    (labels : List String) (reqs : List (String × Nat))
    (hnd : labels.Nodup)
    (hkeys : (reqs.map Prod.fst).Nodup)
    (hpos : (reqs.map Prod.snd).Nodup)
    (hmem : ∀ ep ∈ reqs, ep.1 ∈ labels)
    (hlt : ∀ ep ∈ reqs, ep.2 < labels.length) :
    ∃ m, mkWithReqs labels reqs = some m ∧
      ∀ ep ∈ reqs, m.index_of ep.1 = some ep.2 := by
  obtain ⟨final, hrun, hperm, hplace⟩ :=
    applyReqs_sound reqs reqs [] labels (by simp) hkeys hpos hmem hlt
      (by simp)
  refine ⟨⟨final⟩, by simp [mkWithReqs, hrun], ?_⟩
  intro ep hep
  have hfn : final.Nodup := (hperm.nodup_iff).mpr hnd
  exact (index_of_eq_some_iff hfn).mpr (hplace ep hep)

theorem c1_witness :
    ∃ m, mkWithReqs ["a", "b", "c"] [("c", 0), ("a", 2)] = some m ∧
      ∀ ep ∈ [("c", 0), ("a", 2)], m.index_of ep.1 = some ep.2 :=
  c1_required_mappings_placed ["a", "b", "c"] [("c", 0), ("a", 2)]
    (by decide) (by decide) (by decide) (by decide) (by decide)

/-! ## Claim C3 -/

/-- C3: every successfully constructed `LabelIndexMap` over distinct labels
is a bijection onto `{0, ..., N-1}`: the values of `label_to_index` are
exactly `0, ..., N-1` (in index order, hence without gaps or duplicates),
`label_of (index_of l) = l` for every stored label, and
`index_of (label_of i) = i` for every `i < N`. -/
theorem c3_bijection (labels : List String) (reqs : List (String × Nat))
    (m : LabelIndexMap) (hnd : labels.Nodup)
    (h : mkWithReqs labels reqs = some m) :
    m.label_to_index.map Prod.snd = List.range m.size ∧
    (∀ l ∈ m.individual_labels,
      ∃ i, m.index_of l = some i ∧ m.label_of i = some l) ∧
    (∀ i < m.size, ∃ l, m.label_of i = some l ∧ m.index_of l = some i) := by
  have hperm := mkWithReqs_perm h
  have hndm : m.individual_labels.Nodup := (hperm.nodup_iff).mpr hnd
  refine ⟨by rw [label_to_index_values, size_eq], ?_, ?_⟩
  · intro l hl
    obtain ⟨i, hi⟩ := List.mem_iff_getElem?.mp hl
    exact ⟨i, (index_of_eq_some_iff hndm).mpr hi,
      by rw [label_of_eq_getElem?]; exact hi⟩
  · intro i hi
    rw [size_eq] at hi
    refine ⟨m.individual_labels[i], ?_, ?_⟩
    · rw [label_of_eq_getElem?]
      exact List.getElem?_eq_getElem hi
    · exact (index_of_eq_some_iff hndm).mpr (List.getElem?_eq_getElem hi)

theorem c3_witness :
    (LabelIndexMap.mk ["y", "x"]).label_to_index.map Prod.snd =
      List.range (LabelIndexMap.mk ["y", "x"]).size ∧
    (∀ l ∈ (LabelIndexMap.mk ["y", "x"]).individual_labels,
      ∃ i, (LabelIndexMap.mk ["y", "x"]).index_of l = some i ∧
        (LabelIndexMap.mk ["y", "x"]).label_of i = some l) ∧
    (∀ i < (LabelIndexMap.mk ["y", "x"]).size,
      ∃ l, (LabelIndexMap.mk ["y", "x"]).label_of i = some l ∧
        (LabelIndexMap.mk ["y", "x"]).index_of l = some i) :=
  c3_bijection ["x", "y"] [("y", 0)] (LabelIndexMap.mk ["y", "x"])
    (by decide) (by decide)

theorem pySlice_partition (l : List α) (k : Int) :
    pySliceTo l k ++ pySliceFrom l k = l := by
  unfold pySliceTo pySliceFrom
  by_cases h : (0 : Int) ≤ k
  · rw [if_pos h, if_pos h]; exact List.take_append_drop _ _
  · rw [if_neg h, if_neg h]; exact List.take_append_drop _ _

/-! ## Claim C7 -/

/-- C7: for `val_ratio` in `[0, 1)` the split takes exactly the first
`floor((1 - val_ratio) * len(rows))` rows as the training set and the
remaining rows as the validation set, with no shuffling. -/
theorem c7_split_law (rows : List Row) (r : ℚ) (h0 : 0 ≤ r) (h1 : r < 1) :
    (splitRows rows r).1 =
      rows.take (⌊(1 - r) * (rows.length : ℚ)⌋).toNat ∧
    (splitRows rows r).2 =
      rows.drop (⌊(1 - r) * (rows.length : ℚ)⌋).toNat ∧
    ((splitRows rows r).1.length : Int) = ⌊(1 - r) * (rows.length : ℚ)⌋ ∧
    (splitRows rows r).1.length + (splitRows rows r).2.length =
      rows.length ∧
    (splitRows rows r).1 ++ (splitRows rows r).2 = rows := by
  have hq : (0 : ℚ) ≤ (1 - r) * (rows.length : ℚ) :=
    mul_nonneg (by linarith) (Nat.cast_nonneg _)
  have hfl : (0 : Int) ≤ ⌊(1 - r) * (rows.length : ℚ)⌋ :=
    Int.floor_nonneg.mpr hq
  have hle : (1 - r) * (rows.length : ℚ) ≤ (rows.length : ℚ) := by
    have := mul_le_mul_of_nonneg_right (by linarith : (1 - r) ≤ 1)
      (Nat.cast_nonneg (α := ℚ) rows.length)
    simpa using this
  have hflle : ⌊(1 - r) * (rows.length : ℚ)⌋ ≤ (rows.length : Int) := by
    have := Int.floor_le_floor hle
    simpa using this
  have htoNat : (⌊(1 - r) * (rows.length : ℚ)⌋).toNat ≤ rows.length := by
    omega
  have hpy : pyInt ((1 - r) * (rows.length : ℚ)) =
      ⌊(1 - r) * (rows.length : ℚ)⌋ := by
    unfold pyInt; rw [if_pos hq]
  have hsplit : splitRows rows r =
      (rows.take (⌊(1 - r) * (rows.length : ℚ)⌋).toNat,
       rows.drop (⌊(1 - r) * (rows.length : ℚ)⌋).toNat) := by
    show (pySliceTo rows (pyInt ((1 - r) * (rows.length : ℚ))),
          pySliceFrom rows (pyInt ((1 - r) * (rows.length : ℚ)))) = _
    rw [hpy]
    unfold pySliceTo pySliceFrom
    rw [if_pos hfl, if_pos hfl]
  refine ⟨by rw [hsplit], by rw [hsplit], ?_, ?_, ?_⟩
  · rw [hsplit]
    simp only [List.length_take]
    rw [min_eq_left htoNat]
    omega
  · rw [hsplit]
    simp only [List.length_take, List.length_drop]
    omega
  · rw [hsplit]
    exact List.take_append_drop _ _

theorem c7_witness :
    (splitRows [["a"], ["b"], ["c"]] (1/3)).1 =
      [["a"], ["b"], ["c"]].take
        (⌊(1 - 1/3) * (([["a"], ["b"], ["c"]] : List Row).length : ℚ)⌋).toNat ∧
    (splitRows [["a"], ["b"], ["c"]] (1/3)).2 =
      [["a"], ["b"], ["c"]].drop
        (⌊(1 - 1/3) * (([["a"], ["b"], ["c"]] : List Row).length : ℚ)⌋).toNat ∧
    ((splitRows [["a"], ["b"], ["c"]] (1/3)).1.length : Int) =
      ⌊(1 - 1/3) * (([["a"], ["b"], ["c"]] : List Row).length : ℚ)⌋ ∧
    (splitRows [["a"], ["b"], ["c"]] (1/3)).1.length +
      (splitRows [["a"], ["b"], ["c"]] (1/3)).2.length =
      ([["a"], ["b"], ["c"]] : List Row).length ∧
    (splitRows [["a"], ["b"], ["c"]] (1/3)).1 ++
      (splitRows [["a"], ["b"], ["c"]] (1/3)).2 = [["a"], ["b"], ["c"]] :=
  c7_split_law [["a"], ["b"], ["c"]] (1/3) (by norm_num) (by norm_num)

/-! ## Claim C8 -/

/-- C8 counterexample: `val_ratio = 3/2` lies outside `[0, 1)`, yet the split
raises nothing and returns an ordinary pair of row lists (Python evaluates
`int((1 - 3/2) * 4) = -2` and the negative bound slices from the end). -/
theorem c8_counterexample :
    ¬((3 : ℚ)/2 ∈ Set.Ico (0 : ℚ) 1) ∧
    splitRows [["1"], ["2"], ["3"], ["4"]] (3/2) =
      ([["1"], ["2"]], [["3"], ["4"]]) := by
  constructor
  · intro h
    rw [Set.mem_Ico] at h
    linarith [h.2]
  · norm_num [splitRows, pyInt, pySliceTo, pySliceFrom]
    constructor <;> rfl

/-- C8 amended: `produce_datasets` performs no validation of `val_ratio`.
For every `val_ratio` — inside or outside `[0, 1)` — it returns a pair of
lists that still partitions the post-header rows in order. -/
theorem c8_no_validation (rows : List Row) (r : ℚ) :
    (produceDatasets rows r).1 ++ (produceDatasets rows r).2 =
      rows.drop 1 := by
  show pySliceTo (rows.drop 1) (pyInt ((1 - r) * ((rows.drop 1).length : ℚ)))
      ++ pySliceFrom (rows.drop 1)
        (pyInt ((1 - r) * ((rows.drop 1).length : ℚ))) = rows.drop 1
  exact pySlice_partition _ _

/-! ## Claim C6 -/

/-- C6 counterexample: `__getitem__` looks up the lowercased token.  With the
pipeline vocabulary `{<PAD>: 0, <UNK>: 1, a: 2}`, the input token `A` is
absent from `label_to_index`, yet it encodes to `2` (the index of `a`), not
to the `<UNK>` index `1`. -/
theorem c6_counterexample :
    (LabelIndexMap.mk ["<PAD>", "<UNK>", "a"]).index_of "A" = none ∧
    encodeToken (LabelIndexMap.mk ["<PAD>", "<UNK>", "a"]) "A" = some 2 ∧
    (2 : Nat) ≠ 1 := by
  decide

/-- C6 amended: encoding looks up the lowercased token.  When the vocabulary
maps `<UNK>` to index 1 (as every pipeline vocabulary does), a token whose
lowercase form is absent encodes to 1 — no error is raised — and a token
whose lowercase form is present encodes to that entry's own index. -/
theorem c6_unknown_fallback (m : LabelIndexMap) (t : String)
    (hunk : m.index_of "<UNK>" = some 1) :
    (m.index_of (pyToLower t) = none → encodeToken m t = some 1) ∧
    (∀ i, m.index_of (pyToLower t) = some i → encodeToken m t = some i) := by
  unfold encodeToken
  rw [hunk]
  constructor
  · intro h; rw [h]; rfl
  · intro i h; rw [h]; rfl

theorem c6_witness :
    ((LabelIndexMap.mk ["<PAD>", "<UNK>", "b"]).index_of (pyToLower "q") =
        none →
      encodeToken (LabelIndexMap.mk ["<PAD>", "<UNK>", "b"]) "q" = some 1) ∧
    (∀ i, (LabelIndexMap.mk ["<PAD>", "<UNK>", "b"]).index_of
        (pyToLower "q") = some i →
      encodeToken (LabelIndexMap.mk ["<PAD>", "<UNK>", "b"]) "q" = some i) :=
  c6_unknown_fallback (LabelIndexMap.mk ["<PAD>", "<UNK>", "b"]) "q"
    (by decide)

/-! ## Vocabulary builder lemmas -/

theorem occInsert_keys (acc : List (String × Nat)) (w : String) :
    (occInsert acc w).map Prod.fst =
      if acc.any (fun p => p.1 == w) then acc.map Prod.fst
      else acc.map Prod.fst ++ [w] := by
  unfold occInsert
  by_cases h : acc.any (fun p => p.1 == w)
  · rw [if_pos h, if_pos h, List.map_map]
    apply List.map_congr_left
    intro p _
    by_cases hp : p.1 = w <;> simp [hp]
  · rw [if_neg h, if_neg h]
    simp

theorem foldl_occInsert_keys_nodup (ws : List String) :
    ∀ acc : List (String × Nat), ((acc.map Prod.fst)).Nodup →
      (((ws.foldl occInsert acc).map Prod.fst)).Nodup := by
  induction ws with
  | nil => intro acc h; simpa using h
  | cons w ws ih =>
    intro acc h
    simp only [List.foldl_cons]
    apply ih
    rw [occInsert_keys]
    by_cases hw : acc.any (fun p => p.1 == w)
    · rw [if_pos hw]; exact h
    · rw [if_neg hw]
      rw [List.nodup_append]
      refine ⟨h, List.nodup_singleton w, ?_⟩
      intro a ha hb
      have haw : a = w := by simpa using hb
      subst haw
      obtain ⟨p, hp, hpa⟩ := List.mem_map.mp ha
      rw [List.any_eq_true] at hw
      exact hw ⟨p, hp, by simp [hpa]⟩

theorem foldl_occInsert_keys_mem (ws : List String) :
    ∀ (acc : List (String × Nat)) (k : String),
      k ∈ (ws.foldl occInsert acc).map Prod.fst →
      k ∈ acc.map Prod.fst ∨ k ∈ ws := by
  induction ws with
  | nil => intro acc k h; left; simpa using h
  | cons w ws ih =>
    intro acc k h
    simp only [List.foldl_cons] at h
    rcases ih _ k h with h1 | h1
    · rw [occInsert_keys] at h1
      by_cases hw : acc.any (fun p => p.1 == w)
      · rw [if_pos hw] at h1; exact Or.inl h1
      · rw [if_neg hw] at h1
        rcases List.mem_append.mp h1 with h2 | h2
        · exact Or.inl h2
        · right
          have hkw : k = w := by simpa using h2
          subst hkw
          exact List.mem_cons_self _ _
    · right; right; exact h1

theorem occList_keys_nodup (ws : List String) :
    ((occList ws).map Prod.fst).Nodup :=
  foldl_occInsert_keys_nodup ws [] (by simp)

theorem occList_keys_mem {ws : List String} {k : String}
    (h : k ∈ (occList ws).map Prod.fst) : k ∈ ws := by
  rcases foldl_occInsert_keys_mem ws [] k h with h1 | h1
  · simp at h1
  · exact h1

theorem mem_addIfAbsent {l : List String} {x y : String} :
    y ∈ addIfAbsent l x ↔ y = x ∨ y ∈ l := by
  unfold addIfAbsent
  by_cases h : x ∈ l
  · rw [if_pos h]
    constructor
    · exact Or.inr
    · rintro (rfl | hy)
      · exact h
      · exact hy
  · rw [if_neg h]
    simp [or_comm]

theorem addIfAbsent_length_of_not_mem {l : List String} {x : String}
    (h : x ∉ l) : (addIfAbsent l x).length = l.length + 1 := by
  unfold addIfAbsent
  rw [if_neg h]
  simp

theorem one_lt_length_of_two_mem {l : List String} {a b : String}
    (ha : a ∈ l) (hb : b ∈ l) (hne : a ≠ b) : 1 < l.length := by
  match l with
  | [] => simp at ha
  | [x] =>
    have h1 : a = x := by simpa using ha
    have h2 : b = x := by simpa using hb
    exact absurd (h1.trans h2.symm) hne
  | x :: y :: t => simp [Nat.lt_add_one_iff]

theorem pad_mem_vocabLabels (tok : String → List String) (rows : List Row)
    (maxSize : Option Int) : "<PAD>" ∈ vocabLabels tok rows maxSize := by
  unfold vocabLabels
  rw [mem_addIfAbsent]
  right
  rw [mem_addIfAbsent]
  left
  rfl

theorem unk_mem_vocabLabels (tok : String → List String) (rows : List Row)
    (maxSize : Option Int) : "<UNK>" ∈ vocabLabels tok rows maxSize := by
  unfold vocabLabels
  rw [mem_addIfAbsent]
  left
  rfl

/-- The `LabelIndexMap` construction inside `compute_vocab` always succeeds:
both reserved tokens are present and distinct, so positions `0` and `1` are
in range and the two required mappings are compatible. -/
theorem computeVocab_succeeds (tok : String → List String) (rows : List Row)
    (maxSize : Option Int) :
    ∃ v, computeVocab tok rows maxSize = some v ∧
      v.individual_labels.Perm (vocabLabels tok rows maxSize) ∧
      v.individual_labels[0]? = some "<PAD>" ∧
      v.individual_labels[1]? = some "<UNK>" := by
  have hlen : 1 < (vocabLabels tok rows maxSize).length :=
    one_lt_length_of_two_mem (pad_mem_vocabLabels tok rows maxSize)
      (unk_mem_vocabLabels tok rows maxSize) (by decide)
  obtain ⟨final, hrun, hperm, hplace⟩ :=
    applyReqs_sound [("<PAD>", 0), ("<UNK>", 1)]
      [("<PAD>", 0), ("<UNK>", 1)] [] (vocabLabels tok rows maxSize)
      (by simp) (by decide) (by decide)
      (by
        intro ep hep
        rcases (by simpa using hep :
            ep = ("<PAD>", 0) ∨ ep = ("<UNK>", 1)) with rfl | rfl
        · exact pad_mem_vocabLabels tok rows maxSize
        · exact unk_mem_vocabLabels tok rows maxSize)
      (by
        intro ep hep
        rcases (by simpa using hep :
            ep = ("<PAD>", 0) ∨ ep = ("<UNK>", 1)) with rfl | rfl
        · omega
        · omega)
      (by simp)
  exact ⟨⟨final⟩, by simp [computeVocab, mkWithReqs, hrun], hperm,
    hplace ("<PAD>", 0) (by simp), hplace ("<UNK>", 1) (by simp)⟩

theorem pySliceTo_sublist (l : List α) (k : Int) :
    List.Sublist (pySliceTo l k) l := by
  unfold pySliceTo
  by_cases h : (0 : Int) ≤ k
  · rw [if_pos h]; exact List.take_sublist _ _
  · rw [if_neg h]; exact List.take_sublist _ _

theorem occSorted_perm (ws : List String) :
    (occSorted ws).Perm (occList ws) :=
  List.mergeSort_perm _ _

/-- When the occurrence list is already in weakly-descending-count order
(e.g. all counts equal), the stable sort leaves it unchanged. -/
theorem occSorted_eq_of_sorted {ws : List String}
    (h : (occList ws).Pairwise (fun p q => q.2 ≤ p.2)) :
    occSorted ws = occList ws := by
  unfold occSorted
  apply List.mergeSort_of_sorted
  exact h.imp (fun hab => by simpa using hab)

theorem selectedNames_sub (tok : String → List String) (rows : List Row)
    (maxSize : Option Int) :
    ∀ t ∈ selectedNames tok rows maxSize, t ∈ allTokens tok rows := by
  intro t ht
  unfold selectedNames at ht
  obtain ⟨p, hp, rfl⟩ := List.mem_map.mp ht
  have h1 : p ∈ occSorted (allTokens tok rows) :=
    (pySliceTo_sublist _ _).mem hp
  have h2 : p ∈ occList (allTokens tok rows) :=
    (occSorted_perm _).mem_iff.mp h1
  exact occList_keys_mem (List.mem_map_of_mem Prod.fst h2)

theorem selectedNames_length_some (tok : String → List String)
    (rows : List Row) (m : Int) (h1 : 1 ≤ m) :
    (selectedNames tok rows (some m)).length =
      min (m - 1).toNat (occList (allTokens tok rows)).length := by
  unfold selectedNames selectedBound pySliceTo
  rw [List.length_map, if_pos (by omega : (0 : Int) ≤ m - 1),
    List.length_take, (occSorted_perm _).length_eq]

theorem selectedNames_length_none (tok : String → List String)
    (rows : List Row) :
    (selectedNames tok rows none).length =
      (occList (allTokens tok rows)).length - 1 := by
  simp only [selectedNames, selectedBound, pySliceTo]
  by_cases hL : 1 ≤ (occList (allTokens tok rows)).length
  · rw [List.length_map,
      if_pos (by omega :
        (0 : Int) ≤ ((occList (allTokens tok rows)).length : Int) - 1),
      List.length_take, (occSorted_perm _).length_eq]
    omega
  · have h0 : (occList (allTokens tok rows)).length = 0 := by omega
    rw [List.length_map, h0]
    rw [if_neg (by omega : ¬(0 : Int) ≤ ((0 : Nat) : Int) - 1)]
    rw [List.length_take, (occSorted_perm _).length_eq, h0]
    omega

theorem vocabLabels_length (tok : String → List String) (rows : List Row)
    (maxSize : Option Int)
    (hpad : "<PAD>" ∉ allTokens tok rows)
    (hunk : "<UNK>" ∉ allTokens tok rows) :
    (vocabLabels tok rows maxSize).length =
      (selectedNames tok rows maxSize).length + 2 := by
  have hp : "<PAD>" ∉ selectedNames tok rows maxSize := by
    intro h
    exact hpad (selectedNames_sub tok rows maxSize _ h)
  have hu : "<UNK>" ∉ addIfAbsent (selectedNames tok rows maxSize) "<PAD>" := by
    intro h
    rcases mem_addIfAbsent.mp h with h | h
    · exact absurd h (by decide)
    · exact hunk (selectedNames_sub tok rows maxSize _ h)
  unfold vocabLabels
  rw [addIfAbsent_length_of_not_mem hu, addIfAbsent_length_of_not_mem hp]

/-! ## Claim C5 -/

/-- C5 counterexample: for the corpus with single text `"a b c"` and
`max_size = 4` the builder keeps `max_size - 1 = 3` tokens (not
`max_size - 2 = 2`), so together with the two reserved tokens the vocabulary
has `5 > max_size` entries. -/
theorem c5_counterexample :
    ∃ v, computeVocab pySplitStr [["0", "a b c"]] (some 4) = some v ∧
      v.size = 5 ∧ 4 < v.size := by
  have hs : occSorted (allTokens pySplitStr [["0", "a b c"]]) =
      occList (allTokens pySplitStr [["0", "a b c"]]) :=
    occSorted_eq_of_sorted (by decide)
  refine ⟨LabelIndexMap.mk ["<PAD>", "<UNK>", "c", "a", "b"], ?_,
    by decide, by decide⟩
  simp only [computeVocab, vocabLabels, selectedNames]
  rw [hs]
  rfl

/-- C5 amended: the builder keeps the `max_size - 1` most frequent tokens
(stable descending order), not `max_size - 2`; the total vocabulary size is
`min (max_size - 1, #distinct tokens) + 2`, which can exceed `max_size`.
With `max_size` omitted the bound defaults to `#distinct tokens`, so the last
token of the descending order is dropped and the total is
`#distinct tokens + 1`. -/
theorem c5_vocab_content (tok : String → List String) (rows : List Row)
    (m : Int) (h1 : 1 ≤ m)
    (hpad : "<PAD>" ∉ allTokens tok rows)
    (hunk : "<UNK>" ∉ allTokens tok rows) :
    (∃ v, computeVocab tok rows (some m) = some v ∧
      v.size = min (m - 1).toNat (occList (allTokens tok rows)).length + 2 ∧
      (∀ t, t ∈ v.individual_labels ↔
        t = "<PAD>" ∨ t = "<UNK>" ∨ t ∈ selectedNames tok rows (some m))) ∧
    (∃ v0, computeVocab tok rows none = some v0 ∧
      v0.size = ((occList (allTokens tok rows)).length - 1) + 2) := by
  constructor
  · obtain ⟨v, hv, hperm, -, -⟩ := computeVocab_succeeds tok rows (some m)
    refine ⟨v, hv, ?_, ?_⟩
    · rw [size_eq, hperm.length_eq,
        vocabLabels_length tok rows (some m) hpad hunk,
        selectedNames_length_some tok rows m h1]
    · intro t
      rw [hperm.mem_iff]
      unfold vocabLabels
      rw [mem_addIfAbsent, mem_addIfAbsent]
      tauto
  · obtain ⟨v0, hv0, hperm0, -, -⟩ := computeVocab_succeeds tok rows none
    refine ⟨v0, hv0, ?_⟩
    rw [size_eq, hperm0.length_eq,
      vocabLabels_length tok rows none hpad hunk,
      selectedNames_length_none tok rows]

theorem c5_witness :
    (∃ v, computeVocab pySplitStr [["0", "a a b"]] (some 2) = some v ∧
      v.size = min ((2 : Int) - 1).toNat
        (occList (allTokens pySplitStr [["0", "a a b"]])).length + 2 ∧
      (∀ t, t ∈ v.individual_labels ↔
        t = "<PAD>" ∨ t = "<UNK>" ∨
          t ∈ selectedNames pySplitStr [["0", "a a b"]] (some 2))) ∧
    (∃ v0, computeVocab pySplitStr [["0", "a a b"]] none = some v0 ∧
      v0.size =
        ((occList (allTokens pySplitStr [["0", "a a b"]])).length - 1) + 2) :=
  c5_vocab_content pySplitStr [["0", "a a b"]] 2 (by decide) (by decide)
    (by decide)

/-! ## Claim C9 -/

/-- C9 counterexample: `max_size = 1 < 2` does not fail: `compute_vocab`
happily produces the vocabulary containing just the two reserved tokens. -/
theorem c9_counterexample :
    (1 : Int) < 2 ∧
    computeVocab pySplitStr [["0", "a b"]] (some 1) =
      some (LabelIndexMap.mk ["<PAD>", "<UNK>"]) :=
  ⟨by decide, rfl⟩

/-- C9 amended: `compute_vocab` performs no validation of `max_size` at all;
the construction succeeds for every `max_size < 2`, and `max_size = 1` yields
exactly the two reserved tokens (for any corpus and tokenizer). -/
theorem c9_no_max_size_check (tok : String → List String) (rows : List Row)
    (m : Int) (_hm : m < 2) :
    (computeVocab tok rows (some m)).isSome ∧
    computeVocab tok rows (some 1) =
      some (LabelIndexMap.mk ["<PAD>", "<UNK>"]) := by
  constructor
  · obtain ⟨v, hv, -⟩ := computeVocab_succeeds tok rows (some m)
    rw [hv]; rfl
  · rfl

theorem c9_witness :
    (computeVocab pySplitStr [["0", "a b"]] (some 0)).isSome ∧
    computeVocab pySplitStr [["0", "a b"]] (some 1) =
      some (LabelIndexMap.mk ["<PAD>", "<UNK>"]) :=
  c9_no_max_size_check pySplitStr [["0", "a b"]] 0 (by decide)

/-! ## Claim C10 -/

/-- C10: `compute_vocab` tokenizes and counts every CSV row including the
first (header) row, while `produce_datasets` discards the first row.  A token
occurring only in the header line can therefore enter the vocabulary:
concretely, for the corpus with header text `"headtok"` and one data text
`"x"`, the built vocabulary contains `headtok`, while the dataset rows are
exactly the single data row, whose tokens do not include `headtok`. -/
theorem c10_header_counted :
    (∀ (tok : String → List String) (h : Row) (rest : List Row),
      allTokens tok (h :: rest) =
        (tok (textOf h)).map pyToLower ++ allTokens tok rest) ∧
    (∀ (rows : List Row) (r : ℚ),
      (produceDatasets rows r).1 ++ (produceDatasets rows r).2 =
        rows.drop 1) ∧
    (∃ v, computeVocab pySplitStr [["id", "headtok"], ["1", "x"]] (some 3) =
        some v ∧
      "headtok" ∈ v.individual_labels ∧
      (produceDatasets [["id", "headtok"], ["1", "x"]] (1/2)).1 ++
        (produceDatasets [["id", "headtok"], ["1", "x"]] (1/2)).2 =
        [["1", "x"]] ∧
      "headtok" ∉ allTokens pySplitStr [["1", "x"]]) := by
  refine ⟨?_, ?_, ?_⟩
  · intro tok h rest
    simp [allTokens]
  · intro rows r
    show pySliceTo (rows.drop 1) _ ++ pySliceFrom (rows.drop 1) _ =
      rows.drop 1
    exact pySlice_partition _ _
  · have hs : occSorted
        (allTokens pySplitStr [["id", "headtok"], ["1", "x"]]) =
        occList (allTokens pySplitStr [["id", "headtok"], ["1", "x"]]) :=
      occSorted_eq_of_sorted (by decide)
    refine ⟨LabelIndexMap.mk ["<PAD>", "<UNK>", "headtok", "x"], ?_,
      by decide, ?_, by decide⟩
    · simp only [computeVocab, vocabLabels, selectedNames]
      rw [hs]
      rfl
    · exact pySlice_partition _ _

/-! ## Batch collator lemmas -/

theorem collateLE_trans (a b c : Example) (h1 : collateLE a b)
    (h2 : collateLE b c) : collateLE a c := by
  unfold collateLE at h1 h2 ⊢
  simp only [decide_eq_true_eq] at h1 h2 ⊢
  omega

theorem collateLE_total (a b : Example) : collateLE a b || collateLE b a := by
  unfold collateLE
  rcases Nat.le_total (len0 a) (len0 b) with h | h <;> simp [h]

theorem sortBatch_perm (batch : List Example) :
    (sortBatch batch).Perm batch :=
  List.mergeSort_perm _ _

theorem sortBatch_sorted (batch : List Example) :
    (sortBatch batch).Pairwise (fun a b => len0 b ≤ len0 a) := by
  have h := List.sorted_mergeSort collateLE_trans collateLE_total batch
  exact h.imp (fun hab => by simpa [collateLE] using hab)

/-- Stability of the batch sort: within each group-0-length class, the sorted
batch lists the examples in their original order. -/
theorem sortBatch_stable (batch : List Example) (v : Nat) :
    (sortBatch batch).filter (fun ex => len0 ex == v) =
      batch.filter (fun ex => len0 ex == v) := by
  have hall : ∀ ex ∈ batch.filter (fun ex => len0 ex == v), len0 ex = v := by
    intro ex hex
    have := List.of_mem_filter hex
    simpa using this
  have hc : (batch.filter (fun ex => len0 ex == v)).Pairwise
      (fun a b => collateLE a b = true) := by
    apply List.pairwise_of_forall_mem_list
    intro a ha b hb
    have h1 := hall a ha
    have h2 := hall b hb
    simp [collateLE, h1, h2]
  have hsub1 : List.Sublist (batch.filter (fun ex => len0 ex == v))
      (sortBatch batch) :=
    List.sublist_mergeSort collateLE_trans collateLE_total hc
      (List.filter_sublist batch)
  have hsub2 : List.Sublist (batch.filter (fun ex => len0 ex == v))
      ((sortBatch batch).filter (fun ex => len0 ex == v)) := by
    have h := hsub1.filter (fun ex => len0 ex == v)
    rwa [List.filter_eq_self.mpr (fun a ha => by simp [hall a ha])] at h
  have hlen : ((sortBatch batch).filter (fun ex => len0 ex == v)).length =
      (batch.filter (fun ex => len0 ex == v)).length :=
    ((sortBatch_perm batch).filter _).length_eq
  exact (hsub2.eq_of_length hlen.symm).symm

theorem le_foldr_max (l : List Nat) : ∀ x ∈ l, x ≤ l.foldr max 0 := by
  induction l with
  | nil => intro x hx; simp at hx
  | cons a t ih =>
    intro x hx
    rcases List.mem_cons.mp hx with rfl | hx
    · exact Nat.le_max_left _ _
    · exact Nat.le_trans (ih x hx) (Nat.le_max_right _ _)

theorem le_maxLenG {col : List (List Int)} {xs : List Int} (h : xs ∈ col) :
    xs.length ≤ maxLenG col :=
  le_foldr_max _ _ (List.mem_map_of_mem List.length h)

theorem padRow_length {padVal : Int} {m : Nat} {xs : List Int}
    (h : xs.length ≤ m) : (padRow padVal m xs).length = m := by
  unfold padRow
  rw [List.length_append, List.length_replicate]
  omega

theorem padRow_getElem?_lt {padVal : Int} {m : Nat} {xs : List Int} {j : Nat}
    (h : j < xs.length) : (padRow padVal m xs)[j]? = xs[j]? :=
  List.getElem?_append_left h

theorem padRow_getElem?_pad {padVal : Int} {m : Nat} {xs : List Int} {j : Nat}
    (h1 : xs.length ≤ j) (h2 : j < m) :
    (padRow padVal m xs)[j]? = some padVal := by
  unfold padRow
  rw [List.getElem?_append_right h1]
  exact List.getElem?_replicate_of_lt (by omega)

/-! ## Claim C4 -/

/-- C4: for a non-empty rectangular batch (each example has `G` tensor
groups), `collate` reorders the examples by descending group-0 length — a
permutation of the batch, sorted, and stable (each group-0-length class keeps
its original order) — and returns, per group `g < G`: the vector of original
pre-padding group-`g` lengths in post-sort order, and a `batch_size ×
max_len_g` array whose row `i` holds example `i`'s group-`g` sequence in
positions below its length and `pad_value` in every later position. -/
theorem c4_collate (padVal : Int) (batch : List Example) (G : Nat)
    (hne : batch ≠ []) (hG : ∀ ex ∈ batch, ex.length = G) :
    (sortBatch batch).Perm batch ∧
    (sortBatch batch).Pairwise (fun a b => len0 b ≤ len0 a) ∧
    (∀ v : Nat, (sortBatch batch).filter (fun ex => len0 ex == v) =
      batch.filter (fun ex => len0 ex == v)) ∧
    (collate padVal batch).1.length = G ∧
    (collate padVal batch).2.length = G ∧
    (∀ g, g < G →
      (collate padVal batch).2[g]? =
        some ((sortBatch batch).map (fun ex => (ex.getD g []).length)) ∧
      ∃ arr, (collate padVal batch).1[g]? = some arr ∧
        arr.length = batch.length ∧
        (∀ row ∈ arr,
          row.length = maxLenG (groupCol g (sortBatch batch))) ∧
        (∀ i, i < batch.length →
          (∀ j, j < (((sortBatch batch).getD i []).getD g []).length →
            (arr.getD i [])[j]? =
              (((sortBatch batch).getD i []).getD g [])[j]?) ∧
          (∀ j, (((sortBatch batch).getD i []).getD g []).length ≤ j →
            j < maxLenG (groupCol g (sortBatch batch)) →
            (arr.getD i [])[j]? = some padVal))) := by
  have hGhead : (batch.headD []).length = G := by
    match batch, hne with
    | b :: t, _ => exact hG b (List.mem_cons_self _ _)
  have hslen : (sortBatch batch).length = batch.length :=
    (sortBatch_perm batch).length_eq
  refine ⟨sortBatch_perm batch, sortBatch_sorted batch, sortBatch_stable batch,
    ?_, ?_, ?_⟩
  · show ((List.range (batch.headD []).length).map
      (fun g => (groupCol g (sortBatch batch)).map
        (padRow padVal (maxLenG (groupCol g (sortBatch batch)))))).length = G
    rw [List.length_map, List.length_range, hGhead]
  · show ((List.range (batch.headD []).length).map
      (fun g => (groupCol g (sortBatch batch)).map List.length)).length = G
    rw [List.length_map, List.length_range, hGhead]
  · intro g hg
    constructor
    · show ((List.range (batch.headD []).length).map
        (fun g => (groupCol g (sortBatch batch)).map List.length))[g]? = _
      rw [hGhead, List.getElem?_map, List.getElem?_range hg]
      simp [groupCol, List.map_map]
    · refine ⟨(groupCol g (sortBatch batch)).map
        (padRow padVal (maxLenG (groupCol g (sortBatch batch)))), ?_, ?_, ?_, ?_⟩
      · show ((List.range (batch.headD []).length).map
          (fun g => (groupCol g (sortBatch batch)).map
            (padRow padVal (maxLenG (groupCol g (sortBatch batch))))))[g]? = _
        rw [hGhead, List.getElem?_map, List.getElem?_range hg]
        rfl
      · simp [groupCol, hslen]
      · intro row hrow
        obtain ⟨xs, hxs, rfl⟩ := List.mem_map.mp hrow
        exact padRow_length (le_maxLenG hxs)
      · intro i hi
        have hi' : i < (sortBatch batch).length := by omega
        have hget : ((groupCol g (sortBatch batch)).map
            (padRow padVal (maxLenG (groupCol g (sortBatch batch))))).getD
              i [] =
            padRow padVal (maxLenG (groupCol g (sortBatch batch)))
              (((sortBatch batch).getD i []).getD g []) := by
          rw [List.getD_eq_getElem?_getD, List.getElem?_map]
          unfold groupCol
          rw [List.getElem?_map]
          rw [List.getElem?_eq_getElem hi']
          simp only [Option.map_some', Option.getD_some]
          congr 2
          rw [List.getD_eq_getElem?_getD, List.getElem?_eq_getElem hi']
          rfl
        constructor
        · intro j hj
          rw [hget]
          exact padRow_getElem?_lt hj
        · intro j hj1 hj2
          rw [hget]
          exact padRow_getElem?_pad hj1 hj2

theorem c4_witness :
    (sortBatch [[[9, 9, 9, 9, 9], [1]], [[8, 8], [0]],
        [[7, 7, 7, 7, 7, 7, 7, 7], [1]]]).Perm
      [[[9, 9, 9, 9, 9], [1]], [[8, 8], [0]],
        [[7, 7, 7, 7, 7, 7, 7, 7], [1]]] ∧
    (sortBatch [[[9, 9, 9, 9, 9], [1]], [[8, 8], [0]],
        [[7, 7, 7, 7, 7, 7, 7, 7], [1]]]).Pairwise
      (fun a b => len0 b ≤ len0 a) ∧
    (∀ v : Nat, (sortBatch [[[9, 9, 9, 9, 9], [1]], [[8, 8], [0]],
        [[7, 7, 7, 7, 7, 7, 7, 7], [1]]]).filter (fun ex => len0 ex == v) =
      [[[9, 9, 9, 9, 9], [1]], [[8, 8], [0]],
        [[7, 7, 7, 7, 7, 7, 7, 7], [1]]].filter (fun ex => len0 ex == v)) ∧
    (collate 0 [[[9, 9, 9, 9, 9], [1]], [[8, 8], [0]],
        [[7, 7, 7, 7, 7, 7, 7, 7], [1]]]).1.length = 2 ∧
    (collate 0 [[[9, 9, 9, 9, 9], [1]], [[8, 8], [0]],
        [[7, 7, 7, 7, 7, 7, 7, 7], [1]]]).2.length = 2 ∧
    (∀ g, g < 2 →
      (collate 0 [[[9, 9, 9, 9, 9], [1]], [[8, 8], [0]],
          [[7, 7, 7, 7, 7, 7, 7, 7], [1]]]).2[g]? =
        some ((sortBatch [[[9, 9, 9, 9, 9], [1]], [[8, 8], [0]],
          [[7, 7, 7, 7, 7, 7, 7, 7], [1]]]).map
            (fun ex => (ex.getD g []).length)) ∧
      ∃ arr, (collate 0 [[[9, 9, 9, 9, 9], [1]], [[8, 8], [0]],
          [[7, 7, 7, 7, 7, 7, 7, 7], [1]]]).1[g]? = some arr ∧
        arr.length = ([[[9, 9, 9, 9, 9], [1]], [[8, 8], [0]],
          [[7, 7, 7, 7, 7, 7, 7, 7], [1]]] : List Example).length ∧
        (∀ row ∈ arr, row.length = maxLenG (groupCol g
          (sortBatch [[[9, 9, 9, 9, 9], [1]], [[8, 8], [0]],
            [[7, 7, 7, 7, 7, 7, 7, 7], [1]]]))) ∧
        (∀ i, i < ([[[9, 9, 9, 9, 9], [1]], [[8, 8], [0]],
            [[7, 7, 7, 7, 7, 7, 7, 7], [1]]] : List Example).length →
          (∀ j, j < (((sortBatch [[[9, 9, 9, 9, 9], [1]], [[8, 8], [0]],
              [[7, 7, 7, 7, 7, 7, 7, 7], [1]]]).getD i []).getD g []).length →
            (arr.getD i [])[j]? =
              (((sortBatch [[[9, 9, 9, 9, 9], [1]], [[8, 8], [0]],
                [[7, 7, 7, 7, 7, 7, 7, 7], [1]]]).getD i []).getD g
                  [])[j]?) ∧
          (∀ j, (((sortBatch [[[9, 9, 9, 9, 9], [1]], [[8, 8], [0]],
              [[7, 7, 7, 7, 7, 7, 7, 7], [1]]]).getD i []).getD g
                []).length ≤ j →
            j < maxLenG (groupCol g (sortBatch [[[9, 9, 9, 9, 9], [1]],
              [[8, 8], [0]], [[7, 7, 7, 7, 7, 7, 7, 7], [1]]])) →
            (arr.getD i [])[j]? = some 0))) :=
  c4_collate 0 [[[9, 9, 9, 9, 9], [1]], [[8, 8], [0]],
    [[7, 7, 7, 7, 7, 7, 7, 7], [1]]] 2 (by decide) (by decide)

/-! ## Decimal rendering and parsing lemmas -/

theorem digitChar_spec (d : Nat) (hd : d < 10) :
    isDigitChar (digitChar d) = true ∧ isWsChar (digitChar d) = false ∧
    digitVal (digitChar d) = d := by
  interval_cases d <;> decide

theorem natToChars_mem (n : Nat) :
    ∀ c ∈ natToChars n, ∃ d, d < 10 ∧ c = digitChar d := by
  induction n using Nat.strong_induction_on with
  | _ n ih =>
    intro c hc
    rw [natToChars] at hc
    by_cases h : n < 10
    · rw [dif_pos h] at hc
      exact ⟨n, h, by simpa using hc⟩
    · rw [dif_neg h] at hc
      rcases List.mem_append.mp hc with hc | hc
      · exact ih (n / 10) (Nat.div_lt_self (by omega) (by omega)) c hc
      · exact ⟨n % 10, Nat.mod_lt _ (by omega), by simpa using hc⟩

theorem natToChars_ne_nil (n : Nat) : natToChars n ≠ [] := by
  rw [natToChars]
  by_cases h : n < 10
  · rw [dif_pos h]; simp
  · rw [dif_neg h]; simp

theorem natToChars_foldl (n : Nat) :
    ∀ acc : Nat, (natToChars n).foldl (fun a c => a * 10 + digitVal c) acc =
      acc * 10 ^ (natToChars n).length + n := by
  induction n using Nat.strong_induction_on with
  | _ n ih =>
    intro acc
    rw [natToChars]
    by_cases h : n < 10
    · rw [dif_pos h]
      simp [(digitChar_spec n h).2.2]
    · rw [dif_neg h]
      rw [List.foldl_append,
        ih (n / 10) (Nat.div_lt_self (by omega) (by omega)) acc]
      simp only [List.foldl_cons, List.foldl_nil, List.length_append,
        List.length_singleton]
      rw [(digitChar_spec (n % 10) (Nat.mod_lt _ (by omega))).2.2]
      rw [pow_succ]
      have := Nat.div_add_mod n 10
      ring_nf
      omega

theorem parseNat_natToChars (n : Nat) :
    parseNatChars (natToChars n) = some n := by
  unfold parseNatChars
  rw [if_neg (by simpa using natToChars_ne_nil n)]
  rw [if_pos]
  · rw [natToChars_foldl n 0]
    simp
  · rw [List.all_eq_true]
    intro c hc
    obtain ⟨d, hd, rfl⟩ := natToChars_mem n c hc
    exact (digitChar_spec d hd).1

theorem natToChars_not_ws (n : Nat) :
    ∀ c ∈ natToChars n, isWsChar c = false := by
  intro c hc
  obtain ⟨d, hd, rfl⟩ := natToChars_mem n c hc
  exact (digitChar_spec d hd).2.1

/-! ## Splitting lemmas -/

theorem splitWsAux_no_ws (w : List Char) :
    ∀ (rest acc : List Char), (∀ c ∈ w, isWsChar c = false) →
      splitWsAux (w ++ rest) acc = splitWsAux rest (w.reverse ++ acc) := by
  induction w with
  | nil => intro rest acc _; simp
  | cons c w ih =>
    intro rest acc h
    have hc : isWsChar c = false := h c (List.mem_cons_self _ _)
    show splitWsAux (c :: (w ++ rest)) acc = _
    simp only [splitWsAux]
    rw [if_neg (by simp [hc])]
    rw [ih rest (c :: acc) (fun d hd => h d (List.mem_cons_of_mem _ hd))]
    simp

theorem splitWs_entry (lab ds : List Char)
    (hlabne : lab ≠ []) (hlab : ∀ c ∈ lab, isWsChar c = false)
    (hdsne : ds ≠ []) (hds : ∀ c ∈ ds, isWsChar c = false) :
    splitWs (lab ++ '\t' :: (ds ++ ['\n'])) = [lab, ds] := by
  unfold splitWs
  rw [splitWsAux_no_ws lab _ [] hlab]
  simp only [List.append_nil]
  simp only [splitWsAux]
  rw [if_pos (by decide : isWsChar '\t' = true)]
  rw [if_neg (by
    simp only [List.isEmpty_eq_true, List.reverse_eq_nil_iff]
    exact hlabne)]
  rw [List.reverse_reverse]
  rw [splitWsAux_no_ws ds ['\n'] [] hds]
  simp only [List.append_nil]
  simp only [splitWsAux]
  rw [if_pos (by decide : isWsChar '\n' = true)]
  rw [if_neg (by
    simp only [List.isEmpty_eq_true, List.reverse_eq_nil_iff]
    exact hdsne)]
  rw [List.reverse_reverse]
  rfl

theorem pyLinesAux_chunk (b : List Char) :
    ∀ (rest acc : List Char), (∀ c ∈ b, c ≠ '\n') →
      pyLinesAux (b ++ '\n' :: rest) acc =
        ((acc.reverse ++ b) ++ ['\n']) :: pyLinesAux rest [] := by
  induction b with
  | nil =>
    intro rest acc _
    simp only [List.nil_append, pyLinesAux, if_pos rfl]
    simp
  | cons c b ih =>
    intro rest acc h
    have hc : c ≠ '\n' := h c (List.mem_cons_self _ _)
    show pyLinesAux (c :: (b ++ '\n' :: rest)) acc = _
    simp only [pyLinesAux]
    rw [if_neg hc]
    rw [ih rest (c :: acc) (fun d hd => h d (List.mem_cons_of_mem _ hd))]
    simp

theorem pyLines_chunks (chunks : List (List Char))
    (h : ∀ b ∈ chunks, ∀ c ∈ b, c ≠ '\n') :
    pyLines ((chunks.map (fun b => b ++ ['\n'])).flatten) =
      chunks.map (fun b => b ++ ['\n']) := by
  induction chunks with
  | nil => simp [pyLines, pyLinesAux]
  | cons b rest ih =>
    simp only [List.map_cons, List.flatten_cons]
    have he : (b ++ ['\n']) ++ (rest.map (fun b => b ++ ['\n'])).flatten =
        b ++ '\n' :: (rest.map (fun b => b ++ ['\n'])).flatten := by
      simp
    unfold pyLines
    rw [he, pyLinesAux_chunk b _ [] (h b (List.mem_cons_self _ _))]
    simp only [List.reverse_nil, List.nil_append, List.cons.injEq, true_and]
    exact ih (fun x hx => h x (List.mem_cons_of_mem _ hx))

/-! ## Load fold lemmas -/

theorem pyDictInsert_append {d : List (String × Nat)} {k : String} {v : Nat}
    (h : k ∉ d.map Prod.fst) : pyDictInsert d k v = d ++ [(k, v)] := by
  unfold pyDictInsert
  rw [if_neg]
  intro hany
  rw [List.any_eq_true] at hany
  obtain ⟨p, hp, hpk⟩ := hany
  simp only [beq_iff_eq] at hpk
  exact h (List.mem_map.mpr ⟨p, hp, hpk⟩)

theorem foldl_pyDictInsert (entries : List (String × Nat)) :
    ∀ d : List (String × Nat), (((d ++ entries).map Prod.fst)).Nodup →
      entries.foldl (fun d p => pyDictInsert d p.1 p.2) d = d ++ entries := by
  induction entries with
  | nil => intro d _; simp
  | cons e rest ih =>
    intro d hnd
    simp only [List.foldl_cons]
    have hke : e.1 ∉ d.map Prod.fst := by
      rw [List.map_append, List.nodup_append] at hnd
      intro hmem
      exact hnd.2.2 hmem (by simp)
    rw [pyDictInsert_append hke]
    rw [ih (d ++ [e]) (by simpa using hnd)]
    simp

theorem loadLine_entry (d : List (String × Nat)) (l : String) (i : Nat)
    (hne : l.toList ≠ []) (hws : ∀ c ∈ l.toList, isWsChar c = false) :
    loadLine (some d) ((l.toList ++ '\t' :: natToChars i) ++ ['\n']) =
      some (pyDictInsert d l i) := by
  have hsw : splitWs ((l.toList ++ '\t' :: natToChars i) ++ ['\n']) =
      [l.toList, natToChars i] := by
    have h := splitWs_entry l.toList (natToChars i) hne hws
      (natToChars_ne_nil _) (natToChars_not_ws _)
    rw [← h]
    congr 1
    simp
  unfold loadLine
  rw [hsw]
  simp only [parseNat_natToChars]
  rfl

theorem foldl_loadLine_entries (entries : List (String × Nat)) :
    ∀ d : List (String × Nat),
      (∀ e ∈ entries,
        e.1.toList ≠ [] ∧ ∀ c ∈ e.1.toList, isWsChar c = false) →
      (entries.map (fun p =>
          (p.1.toList ++ '\t' :: natToChars p.2) ++ ['\n'])).foldl
        loadLine (some d) =
      some (entries.foldl (fun d p => pyDictInsert d p.1 p.2) d) := by
  induction entries with
  | nil => intro d _; rfl
  | cons e rest ih =>
    intro d h
    obtain ⟨hne, hws⟩ := h e (List.mem_cons_self _ _)
    simp only [List.map_cons, List.foldl_cons]
    rw [loadLine_entry d e.1 e.2 hne hws]
    exact ih (pyDictInsert d e.1 e.2)
      (fun x hx => h x (List.mem_cons_of_mem _ hx))

/-! ## Claim C2 -/

/-- C2: saving a constructed map (distinct labels, each a non-empty string
without whitespace — the only labels round-trippable through the
whitespace-separated text format) and loading the file back yields a map with
identical `label_to_index` contents.  (By `c3_bijection`/`mkWithReqs_perm`
every constructed map has distinct labels.) -/
theorem c2_save_load_roundtrip (m : LabelIndexMap)
    (hnd : m.individual_labels.Nodup)
    (hlab : ∀ l ∈ m.individual_labels,
      l.toList ≠ [] ∧ ∀ c ∈ l.toList, isWsChar c = false) :
    ∃ m2, LabelIndexMap.load m.save = some m2 ∧
      m2.label_to_index = m.label_to_index := by
  have hlabmem : ∀ p ∈ m.label_to_index, p.1 ∈ m.individual_labels := by
    intro p hp
    have := List.mem_map_of_mem Prod.fst hp
    rwa [label_to_index_keys] at this
  -- the saved file, as a list of newline-terminated chunks
  have hsave : m.save = ((m.label_to_index.map
      (fun p => p.1.toList ++ '\t' :: natToChars p.2)).map
        (fun b => b ++ ['\n'])).flatten := by
    unfold LabelIndexMap.save
    rw [List.map_map]
    congr 1
  have hnonl : ∀ b ∈ m.label_to_index.map
      (fun p => p.1.toList ++ '\t' :: natToChars p.2), ∀ c ∈ b, c ≠ '\n' := by
    intro b hb c hc
    obtain ⟨p, hp, rfl⟩ := List.mem_map.mp hb
    rcases List.mem_append.mp hc with hc | hc
    · have hws := ((hlab p.1 (hlabmem p hp)).2) c hc
      intro hcn
      subst hcn
      exact absurd hws (by decide)
    · rcases List.mem_cons.mp hc with rfl | hc
      · decide
      · have hws := natToChars_not_ws p.2 c hc
        intro hcn
        subst hcn
        exact absurd hws (by decide)
  have hlines : pyLines m.save = (m.label_to_index.map
      (fun p => (p.1.toList ++ '\t' :: natToChars p.2) ++ ['\n'])) := by
    rw [hsave, pyLines_chunks _ hnonl, List.map_map]
    rfl
  have hfold : (pyLines m.save).foldl loadLine
      (some ([] : List (String × Nat))) = some m.label_to_index := by
    rw [hlines]
    rw [foldl_loadLine_entries m.label_to_index []
      (fun e he => hlab e.1 (hlabmem e he))]
    rw [foldl_pyDictInsert m.label_to_index [] (by
      simp only [List.nil_append]
      rw [label_to_index_keys]
      exact hnd)]
    rfl
  -- the reconstruction through the required-mappings constructor
  have hkeys : ((m.label_to_index.map Prod.fst)).Nodup := by
    rw [label_to_index_keys]; exact hnd
  have hpos : ((m.label_to_index.map Prod.snd)).Nodup := by
    rw [label_to_index_values]; exact List.nodup_range _
  obtain ⟨final, hrun, hperm, hplace⟩ :=
    applyReqs_sound m.label_to_index m.label_to_index [] m.individual_labels
      rfl.symm hkeys hpos
      (fun ep hep => hlabmem ep hep)
      (fun ep hep => by
        obtain ⟨h, -⟩ :=
          List.getElem?_eq_some_iff.mp (mem_label_to_index.mp hep)
        exact h)
      (by simp)
  have hfinal : final = m.individual_labels := by
    apply List.ext_getElem?
    intro n
    by_cases hn : n < m.individual_labels.length
    · have hmem : (m.individual_labels[n], n) ∈ m.label_to_index :=
        mem_label_to_index.mpr (List.getElem?_eq_getElem hn)
      have := hplace _ hmem
      rw [this, List.getElem?_eq_getElem hn]
    · rw [List.getElem?_eq_none (by rw [hperm.length_eq]; omega),
        List.getElem?_eq_none (by omega : m.individual_labels.length ≤ n)]
  refine ⟨m, ?_, rfl⟩
  unfold LabelIndexMap.load
  rw [hfold]
  show mkWithReqs (m.label_to_index.map Prod.fst) m.label_to_index = some m
  rw [label_to_index_keys]
  unfold mkWithReqs
  rw [hrun, hfinal]
  rfl

theorem c2_witness :
    ∃ m2, LabelIndexMap.load (LabelIndexMap.mk ["b", "a"]).save = some m2 ∧
      m2.label_to_index = (LabelIndexMap.mk ["b", "a"]).label_to_index :=
  c2_save_load_roundtrip (LabelIndexMap.mk ["b", "a"]) (by decide) (by decide)

end Toxic
